import Mathlib

/-!
Shallow embedding of the seller-apis repository (src/seller.py and
src/market.py): a two-marketplace stock/price synchronisation script.

Spreadsheet cells (the values `pandas` hands to `watch.get(...)`) are
modelled by `CellValue`; Python's `str(...)` and `int(...)` on such values
by `pyStr` and `pyInt`.  The HTTP layer is modelled by a trace of
`ApiCall`s together with a success oracle `ok : Nat → Bool` giving, per
issued call, whether `raise_for_status` passes.  Real I/O (the actual
download, the pagination fetches, `datetime.utcnow`) is replaced by
parameters holding the fetched data.
-/

/-- A spreadsheet cell value as seen by `watch.get(...)`: a string, an
integer, or Python's `None` (key absent / empty cell). -/
inductive CellValue where
  | vStr (s : String)
  | vInt (n : Int)
  | vNone
deriving DecidableEq, Repr

/-- Python `str(...)` on a cell value (`str(None) = "None"`). -/
def pyStr : CellValue → String
  | .vStr s => s
  | .vInt n => toString n
  | .vNone => "None"

/-- Whitespace stripping on a character list, as Python `int(str)` strips
leading and trailing whitespace before parsing. -/
def pyStrip (cs : List Char) : List Char :=
  ((cs.dropWhile Char.isWhitespace).reverse.dropWhile Char.isWhitespace).reverse

/-- Python `int(s)` on a string: strip whitespace, optional sign, then a
nonempty run of decimal digits; `none` models the `ValueError` raised
otherwise.  (Underscore digit grouping is not modelled; no input of this
program uses it.) -/
def pyIntOfStr (s : String) : Option Int :=
  match pyStrip s.toList with
  | [] => none
  | c :: rest =>
    let digits := if c = '+' ∨ c = '-' then rest else c :: rest
    if digits ≠ [] ∧ digits.all Char.isDigit then
      let n : Nat := digits.foldl (fun a d => a * 10 + (d.toNat - '0'.toNat)) 0
      some (if c = '-' then -(n : Int) else (n : Int))
    else none

/-- Python `int(x)` on a cell value: identity on integers, string parsing
on strings, and a `TypeError` (modelled as `none`) on `None`. -/
def pyInt : CellValue → Option Int
  | .vStr s => pyIntOfStr s
  | .vInt n => some n
  | .vNone => none

/-- One row of the vendor spreadsheet (a `watch_remnants` element), keeping
the three fields the pipeline reads: `"Код"`, `"Количество"`, `"Цена"`. -/
structure Row where
  code : CellValue
  quantity : CellValue
  price : CellValue
deriving DecidableEq, Repr

/-- The quantity-normalisation step of `create_stocks` (identical in
seller.py lines 211-217 and market.py lines 182-188):
`count = str(q)`; `">10" → 100`, `"1" → 0`, otherwise `int(q)` —
`none` models the exception `int` raises on absent/non-numeric values. -/
def normalizeCount (q : CellValue) : Option Int :=
  if pyStr q = ">10" then some 100
  else if pyStr q = "1" then some 0
  else pyInt q

namespace seller

/-- An element of the `stocks` list built by seller.py `create_stocks`:
`{"offer_id": ..., "stock": ...}`. -/
structure Stock where
  offer_id : String
  stock : Int
deriving DecidableEq, Repr

/-- The first loop of seller.py `create_stocks` (lines 209-219), threading
the mutable `offer_ids` list: for each remnant row whose `str(Код)` is in
the current `offer_ids`, append a stock entry and `offer_ids.remove` that
code (`List.erase` = remove first occurrence).  `none` models the
exception `int` raises on a bad quantity. -/
def create_stocksAux : List Row → List String → Option (List Stock × List String)
  | [], ids => some ([], ids)
  | w :: ws, ids =>
    if pyStr w.code ∈ ids then
      match normalizeCount w.quantity with
      | none => none
      | some st =>
        match create_stocksAux ws (ids.erase (pyStr w.code)) with
        | none => none
        | some (s, ids') => some (⟨pyStr w.code, st⟩ :: s, ids')
  else create_stocksAux ws ids

/-- seller.py `create_stocks` (lines 188-224), also returning the final
state of the caller's (mutated) `offer_ids` list: the matched-row entries
followed by a zero-stock entry for every offer id left in the list. -/
def create_stocksFull (watch_remnants : List Row) (offer_ids : List String) :
    Option (List Stock × List String) :=
  (create_stocksAux watch_remnants offer_ids).map fun (s, ids') =>
    (s ++ ids'.map fun oid => ⟨oid, 0⟩, ids')

/-- The return value of seller.py `create_stocks`. -/
def create_stocks (watch_remnants : List Row) (offer_ids : List String) :
    Option (List Stock) :=
  (create_stocksFull watch_remnants offer_ids).map Prod.fst

/-- seller.py `price_conversion` (lines 258-266):
`re.sub("[^0-9]", "", price.split(".")[0])` — the prefix of the string
before the first `'.'` (`split(".")[0]`), with every character other than
an ASCII decimal digit removed. -/
def price_conversion (price : String) : String :=
  ⟨(price.toList.takeWhile (· ≠ '.')).filter Char.isDigit⟩

/-- An element of the `prices` list built by seller.py `create_prices`
(constant fields included as in the source). -/
structure Price where
  auto_action_enabled : String
  currency_code : String
  offer_id : String
  old_price : String
  price : String
deriving DecidableEq, Repr

/-- seller.py `create_prices` (lines 227-255): one price entry per remnant
row whose `str(Код)` is in `offer_ids` (no mutation of `offer_ids`).
`price_conversion` calls `.split` on the cell, so a non-string `"Цена"`
cell raises (`none`). -/
def create_prices : List Row → List String → Option (List Price)
  | [], _ => some []
  | w :: ws, ids =>
    if pyStr w.code ∈ ids then
      match w.price with
      | .vStr ps =>
        (create_prices ws ids).map
          (⟨"UNKNOWN", "RUB", pyStr w.code, "0", price_conversion ps⟩ :: ·)
      | _ => none
    else create_prices ws ids

end seller

/-- seller.py `divide` (lines 269-285): slices `lst[i : i+n]` for
`i = 0, n, 2n, ...` below `len(lst)`.  (For `n = 0` Python's
`range(0, L, 0)` raises `ValueError`; every call site uses `n > 0`, and
the claims about `divide` assume `n > 0`.) -/
def divide (lst : List α) (n : ℕ) : List (List α) :=
  if h : n = 0 ∨ lst.length = 0 then []
  else lst.take n :: divide (lst.drop n) n
termination_by lst.length
decreasing_by
  push_neg at h
  obtain ⟨h0, hl⟩ := h
  simp only [List.length_drop]
  omega

namespace market

/-- An element of the `stocks` list built by market.py `create_stocks`:
`{"sku", "warehouseId", "items": [{"count", "type", "updatedAt"}]}` —
the single-element `items` list flattened into its three fields. -/
structure MStock where
  sku : String
  warehouseId : String
  count : Int
  type : String
  updatedAt : String
deriving DecidableEq, Repr

/-- The matched-row loop of market.py `create_stocks` (lines 180-202):
same normalisation and `offer_ids.remove` as seller.py, different record
shape. -/
def create_stocksAux (wid date : String) :
    List Row → List String → Option (List MStock × List String)
  | [], ids => some ([], ids)
  | w :: ws, ids =>
    if pyStr w.code ∈ ids then
      match normalizeCount w.quantity with
      | none => none
      | some st =>
        match create_stocksAux wid date ws (ids.erase (pyStr w.code)) with
        | none => none
        | some (s, ids') => some (⟨pyStr w.code, wid, st, "FIT", date⟩ :: s, ids')
  else create_stocksAux wid date ws ids

/-- market.py `create_stocks` (lines 154-218), with the `utcnow`-derived
timestamp passed in as `date`, also returning the final state of the
mutated `offer_ids` list. -/
def create_stocksFull (watch_remnants : List Row) (offer_ids : List String)
    (wid date : String) : Option (List MStock × List String) :=
  (create_stocksAux wid date watch_remnants offer_ids).map fun (s, ids') =>
    (s ++ ids'.map fun oid => ⟨oid, wid, 0, "FIT", date⟩, ids')

/-- The return value of market.py `create_stocks`. -/
def create_stocks (watch_remnants : List Row) (offer_ids : List String)
    (wid date : String) : Option (List MStock) :=
  (create_stocksFull watch_remnants offer_ids wid date).map Prod.fst

/-- An element of the `prices` list built by market.py `create_prices`:
`{"id", "price": {"value", "currencyId"}}`. -/
structure MPrice where
  id : String
  value : Int
  currencyId : String
deriving DecidableEq, Repr

/-- market.py `create_prices` (lines 221-254): like seller.py's but the
price goes through `int(price_conversion(...))`, which raises (`none`)
when the converted string is not an integer literal. -/
def create_prices : List Row → List String → Option (List MPrice)
  | [], _ => some []
  | w :: ws, ids =>
    if pyStr w.code ∈ ids then
      match w.price with
      | .vStr ps =>
        match pyIntOfStr (seller.price_conversion ps) with
        | none => none
        | some v => (create_prices ws ids).map (⟨pyStr w.code, v, "RUR"⟩ :: ·)
      | _ => none
    else create_prices ws ids

end market

/-- One HTTP push call issued by a pipeline, with the batch it carried.
`campaign` distinguishes the Yandex Market FBS and DBS campaigns. -/
inductive ApiCall where
  | ozonUpdateStocks (batch : List seller.Stock)
  | ozonUpdatePrice (batch : List seller.Price)
  | marketUpdateStocks (campaign : String) (batch : List market.MStock)
  | marketUpdatePrice (campaign : String) (batch : List market.MPrice)
deriving DecidableEq, Repr

/-- Is this call a price-update call (either marketplace)? -/
def ApiCall.isPriceCall : ApiCall → Bool
  | .ozonUpdatePrice _ => true
  | .marketUpdatePrice _ _ => true
  | _ => false

/-- Sequentially push a list of batches starting at call counter `k`,
where `ok i` says whether the `i`-th HTTP call of the run passes
`raise_for_status`.  Returns the successfully pushed batches (in order)
and, if some call failed, the counter of the failing call; the loop stops
at the first failure (the raised exception aborts the remaining
batches). -/
def pushFrom (ok : ℕ → Bool) : ℕ → List β → List β × Option ℕ
  | _, [] => ([], none)
  | k, b :: bs =>
    if ok k then
      let r := pushFrom ok (k + 1) bs
      (b :: r.1, r.2)
    else ([], some k)

/-- The body of seller.py `main` (lines 305-326) after the two fetches
(`get_offer_ids`, `download_stock`) have succeeded, with those results
passed in.  Returns the trace of pushed batches and whether an exception
was caught by the top-level `except` (which prints and returns
normally).  Note `create_stocks` mutates `offer_ids`, so the later
`create_prices` call sees the already-filtered list `ids'`. -/
def sellerMainBody (watch_remnants : List Row) (offer_ids : List String)
    (ok : ℕ → Bool) : List ApiCall × Bool :=
  match seller.create_stocksFull watch_remnants offer_ids with
  | none => ([], true)
  | some (stocks, ids') =>
    let stockBatches := divide stocks 100
    let rs := pushFrom ok 0 stockBatches
    let callsS := rs.1.map ApiCall.ozonUpdateStocks
    match rs.2 with
    | some _ => (callsS, true)
    | none =>
      match seller.create_prices watch_remnants ids' with
      | none => (callsS, true)
      | some prices =>
        let priceBatches := divide prices 900
        let rp := pushFrom ok stockBatches.length priceBatches
        let callsP := rp.1.map ApiCall.ozonUpdatePrice
        (callsS ++ callsP, rp.2.isSome)

/-- The body of seller.py `upload_prices` (lines 288-293) when actually
awaited, with the `get_offer_ids` result passed in: build the price list
from the freshly fetched offer ids and push it in chunks of 1000. -/
def sellerUploadPricesBody (watch_remnants : List Row) (offer_ids : List String)
    (ok : ℕ → Bool) : List ApiCall × Bool :=
  match seller.create_prices watch_remnants offer_ids with
  | none => ([], true)
  | some prices =>
    let rp := pushFrom ok 0 (divide prices 1000)
    (rp.1.map ApiCall.ozonUpdatePrice, rp.2.isSome)

/-- The body of market.py `upload_prices` (lines 257-283) when actually
awaited, with the `get_offer_ids` result passed in: build the price list
and push it in chunks of 500. -/
def marketUploadPricesBody (watch_remnants : List Row) (offer_ids : List String)
    (campaign : String) (ok : ℕ → Bool) : List ApiCall × Bool :=
  match market.create_prices watch_remnants offer_ids with
  | none => ([], true)
  | some prices =>
    let rp := pushFrom ok 0 (divide prices 500)
    (rp.1.map (ApiCall.marketUpdatePrice campaign), rp.2.isSome)

/-- The body of market.py `main` (lines 297-329) after `download_stock`
and with the two `get_offer_ids` results and the `utcnow` timestamp passed
in.  For each campaign it builds and pushes the stock batches in chunks of
2000; the two `upload_prices(...)` calls (lines 314 and 323) invoke an
`async def` from synchronous code without `await`, so in Python they only
create a coroutine object that is never run: no price-update HTTP call is
issued, which the embedding renders by contributing nothing to the
trace. -/
def marketMainBody (watch_remnants : List Row) (fbsIds dbsIds : List String)
    (whFbs whDbs date : String) (ok : ℕ → Bool) : List ApiCall × Bool :=
  match market.create_stocksFull watch_remnants fbsIds whFbs date with
  | none => ([], true)
  | some (stocksF, _) =>
    let batchesF := divide stocksF 2000
    let rF := pushFrom ok 0 batchesF
    let callsF := rF.1.map (ApiCall.marketUpdateStocks "FBS")
    match rF.2 with
    | some _ => (callsF, true)
    | none =>
      -- upload_prices(watch_remnants, campaign_fbs_id, market_token):
      -- coroutine created, never awaited — no calls.
      match market.create_stocksFull watch_remnants dbsIds whDbs date with
      | none => (callsF, true)
      | some (stocksD, _) =>
        let batchesD := divide stocksD 2000
        let rD := pushFrom ok batchesF.length batchesD
        let callsD := rD.1.map (ApiCall.marketUpdateStocks "DBS")
        -- upload_prices(watch_remnants, campaign_dbs_id, market_token):
        -- coroutine created, never awaited — no calls.
        (callsF ++ callsD, rD.2.isSome)

/-- One product entry of an Ozon `/v2/product/list` response page. -/
structure OzonProduct where
  offer_id : String
deriving DecidableEq, Repr

/-- One Ozon `/v2/product/list` response (`result` object): `items`,
`total`, `last_id`. -/
structure OzonPage where
  items : List OzonProduct
  total : ℕ
  last_id : String
deriving DecidableEq, Repr

/-- The pagination loop of seller.py `get_offer_ids` (lines 67-75), with
the server's successive responses modelled as a stream `pages` indexed by
the call number and an explicit fuel bound: extend the accumulator with
the page's items and stop as soon as the page's `total` equals the
accumulated item count.  `none` means the loop has not terminated within
`fuel` iterations. -/
def getOfferIdsLoop (pages : ℕ → OzonPage) :
    ℕ → ℕ → List OzonProduct → Option (List OzonProduct)
  | 0, _, _ => none
  | fuel + 1, k, acc =>
    let acc' := acc ++ (pages k).items
    if (pages k).total = acc'.length then some acc'
    else getOfferIdsLoop pages fuel (k + 1) acc'

/-- seller.py `get_offer_ids` (lines 56-79) with fuel: the pagination loop
followed by extraction of the `offer_id` fields. -/
def get_offer_idsFuel (pages : ℕ → OzonPage) (fuel : ℕ) : Option (List String) :=
  (getOfferIdsLoop pages fuel 0 []).map (·.map OzonProduct.offer_id)

/-- Cumulative number of items returned by the first `n + 1` pages — the
value of `len(product_list)` when the loop's break test runs after
fetching page `n`. -/
def cumItems (pages : ℕ → OzonPage) (n : ℕ) : ℕ :=
  ∑ i ∈ Finset.range (n + 1), (pages i).items.length

/-- A server behaviour under which `get_offer_ids` never terminates:
every page is empty but reports `total = 1`. -/
def badPages : ℕ → OzonPage := fun _ => ⟨[], 1, ""⟩

section DivideLemmas

variable {α : Type _}

lemma divide_nil (n : ℕ) : divide ([] : List α) n = [] := by
  rw [divide]
  simp

lemma divide_cons (lst : List α) (n : ℕ) (h0 : n ≠ 0) (hl : lst ≠ []) :
    divide lst n = lst.take n :: divide (lst.drop n) n := by
  rw [divide]
  simp [h0, List.length_eq_zero, hl]

lemma divide_eq_nil_iff (n : ℕ) (h : 0 < n) (lst : List α) :
    divide lst n = [] ↔ lst = [] := by
  constructor
  · intro he
    by_contra hne
    rw [divide_cons lst n (by omega) hne] at he
    simp at he
  · intro he
    subst he
    exact divide_nil n

lemma divide_length (n : ℕ) (h : 0 < n) (lst : List α) :
    (divide lst n).length = (lst.length + n - 1) / n := by
  induction lst, n using divide.induct with
  | case1 lst n hor =>
    rcases hor with h0 | hl
    · omega
    · have : lst = [] := List.length_eq_zero.mp hl
      subst this
      rw [divide_nil]
      simp only [List.length_nil, Nat.zero_add]
      exact (Nat.div_eq_of_lt (by omega)).symm
  | case2 lst n hor ih =>
    push_neg at hor
    obtain ⟨h0, hl0⟩ := hor
    have hl : lst ≠ [] := by
      intro he; subst he; simp at hl0
    rw [divide_cons lst n h0 hl]
    simp only [List.length_cons, ih h, List.length_drop]
    rcases le_or_lt n lst.length with hle | hlt
    · have h1 : lst.length - n + n - 1 = lst.length - 1 := by omega
      have h2 : lst.length + n - 1 = (lst.length - 1) + n := by omega
      rw [h1, h2, Nat.add_div_right _ h]
    · have h1 : lst.length - n = 0 := by omega
      rw [h1]
      have h2 : (0 + n - 1) / n = 0 := Nat.div_eq_of_lt (by omega)
      rw [h2]
      have h3 : (lst.length + n - 1) / n = 1 := by
        have hge : 1 ≤ lst.length := by
          have := List.length_pos.mpr hl; omega
        apply Nat.div_eq_of_lt_le <;> omega
      omega

lemma divide_length_le (n : ℕ) (h : 0 < n) (lst : List α) :
    ∀ c ∈ divide lst n, c.length ≤ n := by
  induction lst, n using divide.induct with
  | case1 lst n hor =>
    rw [divide, dif_pos hor]
    simp
  | case2 lst n hor ih =>
    push_neg at hor
    obtain ⟨h0, hl0⟩ := hor
    rw [divide_cons lst n h0 (by intro he; subst he; simp at hl0)]
    intro c hc
    rcases List.mem_cons.mp hc with rfl | hc
    · simp
    · exact ih h c hc

lemma divide_dropLast_length (n : ℕ) (h : 0 < n) (lst : List α) :
    ∀ c ∈ (divide lst n).dropLast, c.length = n := by
  induction lst, n using divide.induct with
  | case1 lst n hor =>
    rw [divide, dif_pos hor]
    simp
  | case2 lst n hor ih =>
    push_neg at hor
    obtain ⟨h0, hl0⟩ := hor
    rw [divide_cons lst n h0 (by intro he; subst he; simp at hl0)]
    by_cases hrest : divide (lst.drop n) n = []
    · rw [hrest]
      simp
    · rw [List.dropLast_cons_of_ne_nil hrest]
      intro c hc
      rcases List.mem_cons.mp hc with rfl | hc
      · have hdrop : lst.drop n ≠ [] := by
          intro he
          exact hrest (by rw [he]; exact divide_nil n)
        have hlt : ¬ lst.length ≤ n := fun hle => hdrop (List.drop_eq_nil_iff.mpr hle)
        simp [List.length_take]
        omega
      · exact ih h c hc

lemma divide_getLastLen (n : ℕ) (h : 0 < n) (lst : List α)
    (hmod : lst.length % n ≠ 0) :
    ∃ c, (divide lst n).getLast? = some c ∧ c.length = lst.length % n := by
  induction lst, n using divide.induct with
  | case1 lst n hor =>
    rcases hor with h0 | hl
    · omega
    · rw [Nat.eq_zero_of_le_zero (Nat.le_of_eq hl)] at hmod
      simp at hmod
  | case2 lst n hor ih =>
    push_neg at hor
    obtain ⟨h0, hl0⟩ := hor
    rw [divide_cons lst n h0 (by intro he; subst he; simp at hl0)]
    by_cases hrest : divide (lst.drop n) n = []
    · have hdrop : lst.drop n = [] := (divide_eq_nil_iff n h _).mp hrest
      have hle : lst.length ≤ n := List.drop_eq_nil_iff.mp hdrop
      have hlt : lst.length < n := by
        rcases Nat.lt_or_ge lst.length n with hlt | hge
        · exact hlt
        · have : lst.length = n := le_antisymm hle hge
          rw [this] at hmod
          simp at hmod
      rw [hrest]
      refine ⟨lst.take n, rfl, ?_⟩
      rw [Nat.mod_eq_of_lt hlt]
      simp [List.length_take]
      omega
    · have hdrop : lst.drop n ≠ [] :=
        fun he => hrest (by rw [he]; exact divide_nil n)
      have hlen : ¬ lst.length ≤ n := fun hle => hdrop (List.drop_eq_nil_iff.mpr hle)
      have hmod' : (lst.drop n).length % n ≠ 0 := by
        simp only [List.length_drop]
        have heq : lst.length - n + n = lst.length := by omega
        have hmr := Nat.add_mod_right (lst.length - n) n
        rw [heq] at hmr
        rw [← hmr]
        exact hmod
      obtain ⟨c, hc, hcl⟩ := ih h hmod'
      refine ⟨c, List.mem_getLast?_cons hc, ?_⟩
      rw [hcl]
      simp only [List.length_drop]
      have heq : lst.length - n + n = lst.length := by omega
      calc (lst.length - n) % n = (lst.length - n + n) % n :=
            (Nat.add_mod_right _ _).symm
        _ = lst.length % n := by rw [heq]

end DivideLemmas

/-- C5: For every list of length `L` and every chunk size `N > 0`,
`divide` yields exactly `⌈L/N⌉` chunks, each of size `N` except possibly
the last, which has size `L % N` when `L % N` is nonzero. -/
theorem C5_divide_chunks {α : Type _} (lst : List α) (n : ℕ) (h : 0 < n) :
    (divide lst n).length = (lst.length + n - 1) / n ∧
    (∀ c ∈ (divide lst n).dropLast, c.length = n) ∧
    (lst.length % n ≠ 0 →
      ∃ c, (divide lst n).getLast? = some c ∧ c.length = lst.length % n) :=
  ⟨divide_length n h lst, divide_dropLast_length n h lst,
    divide_getLastLen n h lst⟩

/-- Witness for C5 at `lst = [0,...,6]`, `n = 3`: `7` elements split into
`⌈7/3⌉ = 3` chunks, the non-final ones of size `3`, the last of size
`7 % 3 = 1`. -/
theorem C5_divide_chunks_witness :
    0 < 3 ∧
    ((divide [0, 1, 2, 3, 4, 5, 6] 3).length = (7 + 3 - 1) / 3 ∧
      (∀ c ∈ (divide [0, 1, 2, 3, 4, 5, 6] 3).dropLast, c.length = 3) ∧
      (7 % 3 ≠ 0 →
        ∃ c, (divide [0, 1, 2, 3, 4, 5, 6] 3).getLast? = some c ∧
          c.length = 7 % 3)) :=
  ⟨by decide, C5_divide_chunks [0, 1, 2, 3, 4, 5, 6] 3 (by decide)⟩

section PriceConversionLemmas

lemma pyStrip_eq_self (cs : List Char) (h : ∀ c ∈ cs, ¬ c.isWhitespace) :
    pyStrip cs = cs := by
  unfold pyStrip
  have h1 : cs.dropWhile Char.isWhitespace = cs := by
    rw [List.dropWhile_eq_self_iff]
    intro hl
    exact h _ (List.get_mem cs _ hl)
  rw [h1]
  have h2 : cs.reverse.dropWhile Char.isWhitespace = cs.reverse := by
    rw [List.dropWhile_eq_self_iff]
    intro hl
    exact h _ (List.mem_reverse.mp (List.get_mem cs.reverse _ hl))
  rw [h2, List.reverse_reverse]

lemma digit_not_ws (c : Char) (h : c.isDigit) : ¬ c.isWhitespace := by
  intro hw
  simp [Char.isWhitespace] at hw
  rcases hw with ((h1 | h1) | h1) | h1 <;> (subst h1; simp [Char.isDigit] at h)

lemma digit_ne_sign (c : Char) (h : c.isDigit) : ¬ (c = '+' ∨ c = '-') := by
  intro hw
  rcases hw with h1 | h1 <;> (subst h1; simp [Char.isDigit] at h)

/-- A nonempty all-digit character string is accepted by Python `int`. -/
lemma pyIntOfStr_digits (cs : List Char) (hne : cs ≠ [])
    (hd : ∀ c ∈ cs, c.isDigit) : (pyIntOfStr ⟨cs⟩).isSome = true := by
  have hts : (String.mk cs).toList = cs := rfl
  unfold pyIntOfStr
  rw [hts, pyStrip_eq_self cs (fun c hc => digit_not_ws c (hd c hc))]
  match cs, hne with
  | c :: rest, _ =>
    simp only
    rw [if_neg (digit_ne_sign c (hd c (by simp)))]
    rw [if_pos]
    · simp
    · refine ⟨by simp, ?_⟩
      rw [List.all_eq_true]
      intro x hx
      exact hd x hx

end PriceConversionLemmas

/-- C4, counterexample to "this result is an integer-valued string": for
the price string `"руб."` (no digit before the first `'.'`),
`price_conversion` returns `""`, which Python `int` rejects — it is not
an integer-valued string. -/
theorem C4_counterexample :
    seller.price_conversion "руб." = "" ∧
    pyIntOfStr (seller.price_conversion "руб.") = none := by
  exact ⟨by decide, by decide⟩

/-- C4 (amended): `price_conversion` returns the part of the input before
the first `'.'` with every non-digit character deleted — a string of
decimal digits, which is an integer-valued string whenever the input has
at least one digit before the first `'.'`; in particular
`price_conversion "5'990.00 руб." = "5990"`. -/
theorem C4_price_conversion (p : String) :
    (seller.price_conversion p).toList.all Char.isDigit = true ∧
    ((∃ c ∈ p.toList.takeWhile (· ≠ '.'), c.isDigit) →
      (pyIntOfStr (seller.price_conversion p)).isSome = true) ∧
    seller.price_conversion "5'990.00 руб." = "5990" := by
  refine ⟨?_, ?_, by decide⟩
  · rw [List.all_eq_true]
    intro c hc
    have : c ∈ (p.toList.takeWhile (· ≠ '.')).filter Char.isDigit := hc
    exact (List.mem_filter.mp this).2
  · rintro ⟨c, hc, hcd⟩
    have hmem : c ∈ (p.toList.takeWhile (· ≠ '.')).filter Char.isDigit :=
      List.mem_filter.mpr ⟨hc, hcd⟩
    refine pyIntOfStr_digits _ (fun he => ?_) (fun x hx => (List.mem_filter.mp hx).2)
    rw [he] at hmem
    exact List.not_mem_nil c hmem

/-- Witness for C4 at `p = "5'990.00 руб."`: the digit-existence
hypothesis holds and the converted string parses as an integer. -/
theorem C4_price_conversion_witness :
    (∃ c ∈ ("5'990.00 руб.".toList.takeWhile (· ≠ '.')), c.isDigit) ∧
    (pyIntOfStr (seller.price_conversion "5'990.00 руб.")).isSome = true :=
  ⟨by decide, (C4_price_conversion "5'990.00 руб.").2.1 (by decide)⟩


namespace seller

lemma aux_matched : ∀ (rs : List Row) (ids : List String) (s : List Stock)
    (ids' : List String),
    (rs.map (fun w => pyStr w.code)).Nodup →
    create_stocksAux rs ids = some (s, ids') →
    ∀ w ∈ rs, pyStr w.code ∈ ids →
    ∃ st, normalizeCount w.quantity = some st ∧ Stock.mk (pyStr w.code) st ∈ s := by
  intro rs
  induction rs with
  | nil => intro ids s ids' _ _ w hw; exact absurd hw (List.not_mem_nil w)
  | cons w0 ws ih =>
    intro ids s ids' hnd haux w hw hwid
    rw [List.map_cons, List.nodup_cons] at hnd
    obtain ⟨hc0, hndw⟩ := hnd
    by_cases hmem : pyStr w0.code ∈ ids
    · rw [create_stocksAux, if_pos hmem] at haux
      cases hnc : normalizeCount w0.quantity with
      | none => rw [hnc] at haux; exact absurd haux (by simp)
      | some st0 =>
        rw [hnc] at haux
        cases haux2 : create_stocksAux ws (ids.erase (pyStr w0.code)) with
        | none => rw [haux2] at haux; exact absurd haux (by simp)
        | some p =>
          obtain ⟨s1, ids1⟩ := p
          rw [haux2] at haux
          simp only [Option.some.injEq, Prod.mk.injEq] at haux
          obtain ⟨hs, hids⟩ := haux
          rcases List.mem_cons.mp hw with rfl | hwws
          · exact ⟨st0, hnc, by rw [← hs]; exact List.mem_cons_self _ _⟩
          · have hne : pyStr w.code ≠ pyStr w0.code := by
              intro he
              exact hc0 (he ▸ List.mem_map_of_mem (fun w => pyStr w.code) hwws)
            have hmem' : pyStr w.code ∈ ids.erase (pyStr w0.code) :=
              (List.mem_erase_of_ne hne).mpr hwid
            obtain ⟨st, h1, h2⟩ := ih _ _ _ hndw haux2 w hwws hmem'
            exact ⟨st, h1, by rw [← hs]; exact List.mem_cons_of_mem _ h2⟩
    · rw [create_stocksAux, if_neg hmem] at haux
      rcases List.mem_cons.mp hw with rfl | hwws
      · exact absurd hwid hmem
      · exact ih _ _ _ hndw haux w hwws hwid

lemma aux_covers : ∀ (rs : List Row) (ids : List String) (s : List Stock)
    (ids' : List String),
    create_stocksAux rs ids = some (s, ids') →
    ∀ x ∈ ids, (∃ e ∈ s, e.offer_id = x) ∨ x ∈ ids' := by
  intro rs
  induction rs with
  | nil =>
    intro ids s ids' haux x hx
    rw [create_stocksAux] at haux
    simp only [Option.some.injEq, Prod.mk.injEq] at haux
    exact Or.inr (haux.2 ▸ hx)
  | cons w0 ws ih =>
    intro ids s ids' haux x hx
    by_cases hmem : pyStr w0.code ∈ ids
    · rw [create_stocksAux, if_pos hmem] at haux
      cases hnc : normalizeCount w0.quantity with
      | none => rw [hnc] at haux; exact absurd haux (by simp)
      | some st0 =>
        rw [hnc] at haux
        cases haux2 : create_stocksAux ws (ids.erase (pyStr w0.code)) with
        | none => rw [haux2] at haux; exact absurd haux (by simp)
        | some p =>
          obtain ⟨s1, ids1⟩ := p
          rw [haux2] at haux
          simp only [Option.some.injEq, Prod.mk.injEq] at haux
          obtain ⟨hs, hids⟩ := haux
          by_cases hxc : x = pyStr w0.code
          · subst hxc
            exact Or.inl ⟨_, by rw [← hs]; exact List.mem_cons_self _ _, rfl⟩
          · have hx' : x ∈ ids.erase (pyStr w0.code) :=
              (List.mem_erase_of_ne hxc).mpr hx
            rcases ih _ _ _ haux2 x hx' with ⟨e, he, heq⟩ | hxr
            · exact Or.inl ⟨e, by rw [← hs]; exact List.mem_cons_of_mem _ he, heq⟩
            · exact Or.inr (hids ▸ hxr)
    · rw [create_stocksAux, if_neg hmem] at haux
      exact ih _ _ _ haux x hx

lemma aux_unmatched : ∀ (rs : List Row) (ids : List String) (s : List Stock)
    (ids' : List String),
    create_stocksAux rs ids = some (s, ids') →
    ∀ x ∈ ids, (∀ w ∈ rs, pyStr w.code ≠ x) → x ∈ ids' := by
  intro rs
  induction rs with
  | nil =>
    intro ids s ids' haux x hx _
    rw [create_stocksAux] at haux
    simp only [Option.some.injEq, Prod.mk.injEq] at haux
    exact haux.2 ▸ hx
  | cons w0 ws ih =>
    intro ids s ids' haux x hx hnm
    by_cases hmem : pyStr w0.code ∈ ids
    · rw [create_stocksAux, if_pos hmem] at haux
      cases hnc : normalizeCount w0.quantity with
      | none => rw [hnc] at haux; exact absurd haux (by simp)
      | some st0 =>
        rw [hnc] at haux
        cases haux2 : create_stocksAux ws (ids.erase (pyStr w0.code)) with
        | none => rw [haux2] at haux; exact absurd haux (by simp)
        | some p =>
          obtain ⟨s1, ids1⟩ := p
          rw [haux2] at haux
          simp only [Option.some.injEq, Prod.mk.injEq] at haux
          obtain ⟨hs, hids⟩ := haux
          have hxne : x ≠ pyStr w0.code :=
            fun he => hnm w0 (List.mem_cons_self _ _) he.symm
          have hx' : x ∈ ids.erase (pyStr w0.code) :=
            (List.mem_erase_of_ne hxne).mpr hx
          exact hids ▸ ih _ _ _ haux2 x hx'
            (fun w hw => hnm w (List.mem_cons_of_mem _ hw))
    · rw [create_stocksAux, if_neg hmem] at haux
      exact ih _ _ _ haux x hx (fun w hw => hnm w (List.mem_cons_of_mem _ hw))

lemma aux_sublist : ∀ (rs : List Row) (ids : List String) (s : List Stock)
    (ids' : List String),
    create_stocksAux rs ids = some (s, ids') → ids'.Sublist ids := by
  intro rs
  induction rs with
  | nil =>
    intro ids s ids' haux
    rw [create_stocksAux] at haux
    simp only [Option.some.injEq, Prod.mk.injEq] at haux
    exact haux.2 ▸ List.Sublist.refl ids
  | cons w0 ws ih =>
    intro ids s ids' haux
    by_cases hmem : pyStr w0.code ∈ ids
    · rw [create_stocksAux, if_pos hmem] at haux
      cases hnc : normalizeCount w0.quantity with
      | none => rw [hnc] at haux; exact absurd haux (by simp)
      | some st0 =>
        rw [hnc] at haux
        cases haux2 : create_stocksAux ws (ids.erase (pyStr w0.code)) with
        | none => rw [haux2] at haux; exact absurd haux (by simp)
        | some p =>
          obtain ⟨s1, ids1⟩ := p
          rw [haux2] at haux
          simp only [Option.some.injEq, Prod.mk.injEq] at haux
          exact haux.2 ▸ (ih _ _ _ haux2).trans (List.erase_sublist _ _)
    · rw [create_stocksAux, if_neg hmem] at haux
      exact ih _ _ _ haux

lemma aux_removed_matched : ∀ (rs : List Row) (ids : List String)
    (s : List Stock) (ids' : List String),
    create_stocksAux rs ids = some (s, ids') →
    ∀ x ∈ ids, x ∉ ids' → ∃ w ∈ rs, pyStr w.code = x := by
  intro rs
  induction rs with
  | nil =>
    intro ids s ids' haux x hx hx'
    rw [create_stocksAux] at haux
    simp only [Option.some.injEq, Prod.mk.injEq] at haux
    exact absurd (haux.2 ▸ hx) hx'
  | cons w0 ws ih =>
    intro ids s ids' haux x hx hx'
    by_cases hmem : pyStr w0.code ∈ ids
    · rw [create_stocksAux, if_pos hmem] at haux
      cases hnc : normalizeCount w0.quantity with
      | none => rw [hnc] at haux; exact absurd haux (by simp)
      | some st0 =>
        rw [hnc] at haux
        cases haux2 : create_stocksAux ws (ids.erase (pyStr w0.code)) with
        | none => rw [haux2] at haux; exact absurd haux (by simp)
        | some p =>
          obtain ⟨s1, ids1⟩ := p
          rw [haux2] at haux
          simp only [Option.some.injEq, Prod.mk.injEq] at haux
          obtain ⟨hs, hids⟩ := haux
          by_cases hxc : x = pyStr w0.code
          · exact ⟨w0, List.mem_cons_self _ _, hxc.symm⟩
          · have hx2 : x ∈ ids.erase (pyStr w0.code) :=
              (List.mem_erase_of_ne hxc).mpr hx
            obtain ⟨w, hw, hweq⟩ := ih _ _ _ haux2 x hx2 (hids ▸ hx')
            exact ⟨w, List.mem_cons_of_mem _ hw, hweq⟩
    · rw [create_stocksAux, if_neg hmem] at haux
      obtain ⟨w, hw, hweq⟩ := ih _ _ _ haux x hx hx'
      exact ⟨w, List.mem_cons_of_mem _ hw, hweq⟩

lemma aux_total : ∀ (rs : List Row) (ids : List String),
    (∀ w ∈ rs, (normalizeCount w.quantity).isSome = true) →
    (create_stocksAux rs ids).isSome = true := by
  intro rs
  induction rs with
  | nil => intro ids _; rw [create_stocksAux]; simp
  | cons w0 ws ih =>
    intro ids hq
    by_cases hmem : pyStr w0.code ∈ ids
    · rw [create_stocksAux, if_pos hmem]
      cases hnc : normalizeCount w0.quantity with
      | none =>
        have := hq w0 (List.mem_cons_self _ _)
        rw [hnc] at this
        exact absurd this (by simp)
      | some st0 =>
        have hrec := ih (ids.erase (pyStr w0.code))
          (fun w hw => hq w (List.mem_cons_of_mem _ hw))
        cases haux2 : create_stocksAux ws (ids.erase (pyStr w0.code)) with
        | none => rw [haux2] at hrec; exact absurd hrec (by simp)
        | some p => obtain ⟨s1, ids1⟩ := p; simp
    · rw [create_stocksAux, if_neg hmem]
      exact ih ids (fun w hw => hq w (List.mem_cons_of_mem _ hw))

lemma aux_final_ids : ∀ (rs : List Row) (ids : List String) (s : List Stock)
    (ids' : List String),
    create_stocksAux rs ids = some (s, ids') → ids.Nodup →
    ∀ x, x ∈ ids' ↔ (x ∈ ids ∧ ∀ w ∈ rs, pyStr w.code ≠ x) := by
  intro rs
  induction rs with
  | nil =>
    intro ids s ids' haux _ x
    rw [create_stocksAux] at haux
    simp only [Option.some.injEq, Prod.mk.injEq] at haux
    rw [← haux.2]
    simp
  | cons w0 ws ih =>
    intro ids s ids' haux hnd x
    by_cases hmem : pyStr w0.code ∈ ids
    · rw [create_stocksAux, if_pos hmem] at haux
      cases hnc : normalizeCount w0.quantity with
      | none => rw [hnc] at haux; exact absurd haux (by simp)
      | some st0 =>
        rw [hnc] at haux
        cases haux2 : create_stocksAux ws (ids.erase (pyStr w0.code)) with
        | none => rw [haux2] at haux; exact absurd haux (by simp)
        | some p =>
          obtain ⟨s1, ids1⟩ := p
          rw [haux2] at haux
          simp only [Option.some.injEq, Prod.mk.injEq] at haux
          obtain ⟨hs, hids⟩ := haux
          rw [← hids]
          rw [ih _ _ _ haux2 (hnd.erase _) x]
          rw [List.Nodup.mem_erase_iff hnd]
          constructor
          · rintro ⟨⟨hxne, hxids⟩, hws⟩
            refine ⟨hxids, ?_⟩
            intro w hw
            rcases List.mem_cons.mp hw with rfl | hwws
            · exact fun he => hxne he.symm
            · exact hws w hwws
          · rintro ⟨hxids, hall⟩
            exact ⟨⟨fun he => hall w0 (List.mem_cons_self _ _) he.symm, hxids⟩,
              fun w hw => hall w (List.mem_cons_of_mem _ hw)⟩
    · rw [create_stocksAux, if_neg hmem] at haux
      rw [ih _ _ _ haux hnd x]
      constructor
      · rintro ⟨hxids, hws⟩
        refine ⟨hxids, ?_⟩
        intro w hw
        rcases List.mem_cons.mp hw with rfl | hwws
        · exact fun he => hmem (he ▸ hxids)
        · exact hws w hwws
      · rintro ⟨hxids, hall⟩
        exact ⟨hxids, fun w hw => hall w (List.mem_cons_of_mem _ hw)⟩

lemma create_prices_no_match : ∀ (rs : List Row) (ids : List String),
    (∀ w ∈ rs, pyStr w.code ∉ ids) → create_prices rs ids = some [] := by
  intro rs
  induction rs with
  | nil => intro ids _; rw [create_prices]
  | cons w0 ws ih =>
    intro ids hnm
    rw [create_prices, if_neg (hnm w0 (List.mem_cons_self _ _))]
    exact ih ids (fun w hw => hnm w (List.mem_cons_of_mem _ hw))

end seller

lemma pushFrom_all_ok {β : Type _} (ok : ℕ → Bool) (hok : ∀ i, ok i = true) :
    ∀ (bs : List β) (k : ℕ), pushFrom ok k bs = (bs, none) := by
  intro bs
  induction bs with
  | nil => intro k; rw [pushFrom]
  | cons b bs ih =>
    intro k
    rw [pushFrom, if_pos (hok k), ih (k + 1)]

lemma pushFrom_fail {β : Type _} (ok : ℕ → Bool) :
    ∀ (bs : List β) (k j : ℕ),
    (∀ i, i < j → ok (k + i) = true) → ok (k + j) = false →
    j < bs.length →
    pushFrom ok k bs = (bs.take j, some (k + j)) := by
  intro bs
  induction bs with
  | nil => intro k j _ _ hj; simp at hj
  | cons b bs ih =>
    intro k j hpre hfail hj
    cases j with
    | zero =>
      rw [pushFrom, if_neg]
      · simp
      · simpa using hfail
    | succ j' =>
      have hk : ok k = true := by simpa using hpre 0 (Nat.succ_pos j')
      rw [pushFrom, if_pos hk]
      have hpre' : ∀ i, i < j' → ok (k + 1 + i) = true := by
        intro i hi
        have := hpre (i + 1) (by omega)
        rwa [show k + (i + 1) = k + 1 + i by omega] at this
      have hfail' : ok (k + 1 + j') = false := by
        rwa [show k + (j' + 1) = k + 1 + j' by omega] at hfail
      rw [ih (k + 1) j' hpre' hfail' (by simpa using hj)]
      rw [show k + 1 + j' = k + (j' + 1) from by omega]
      rfl

lemma market_aux_eq (wid date : String) :
    ∀ (rs : List Row) (ids : List String),
    market.create_stocksAux wid date rs ids =
      (seller.create_stocksAux rs ids).map
        (fun p => (p.1.map (fun e => market.MStock.mk e.offer_id wid e.stock "FIT" date), p.2)) := by
  intro rs
  induction rs with
  | nil =>
    intro ids
    rw [market.create_stocksAux, seller.create_stocksAux]
    rfl
  | cons w0 ws ih =>
    intro ids
    by_cases hmem : pyStr w0.code ∈ ids
    · rw [market.create_stocksAux, seller.create_stocksAux, if_pos hmem, if_pos hmem]
      cases hnc : normalizeCount w0.quantity with
      | none => rfl
      | some st0 =>
        rw [ih (ids.erase (pyStr w0.code))]
        cases haux : seller.create_stocksAux ws (ids.erase (pyStr w0.code)) with
        | none => rfl
        | some p => rfl
    · rw [market.create_stocksAux, seller.create_stocksAux, if_neg hmem, if_neg hmem]
      exact ih ids

/-- The shape market.py `create_stocks` gives to one seller-shaped stock
entry (warehouse id, fixed `"FIT"` type and the timestamp added). -/
def market.ofSellerStock (wid date : String) (e : seller.Stock) : market.MStock :=
  ⟨e.offer_id, wid, e.stock, "FIT", date⟩

lemma market_create_stocksFull_eq (rs : List Row) (ids : List String)
    (wid date : String) :
    market.create_stocksFull rs ids wid date =
      (seller.create_stocksFull rs ids).map
        (fun p => (p.1.map (market.ofSellerStock wid date), p.2)) := by
  unfold market.create_stocksFull seller.create_stocksFull
  rw [market_aux_eq]
  cases haux : seller.create_stocksAux rs ids with
  | none => rfl
  | some p =>
    obtain ⟨s1, ids1⟩ := p
    simp only [Option.map_some', Option.some.injEq, Prod.mk.injEq]
    refine ⟨?_, trivial⟩
    rw [List.map_append, List.map_map]
    exact rfl

lemma normalizeCount_cases (q : CellValue) (st : Int)
    (h : normalizeCount q = some st) :
    (pyStr q = ">10" → st = 100) ∧ (pyStr q = "1" → st = 0) ∧
    (pyStr q ≠ ">10" → pyStr q ≠ "1" → pyInt q = some st) := by
  unfold normalizeCount at h
  split_ifs at h with h1 h2
  · refine ⟨fun _ => by injection h with h; omega, fun h2 => ?_, fun hn _ => absurd h1 hn⟩
    rw [h1] at h2
    exact absurd h2 (by decide)
  · refine ⟨fun hx => absurd hx h1, fun _ => by injection h with h; omega,
      fun _ hn => absurd h2 hn⟩
  · exact ⟨fun hx => absurd hx h1, fun hx => absurd hx h2, fun _ _ => h⟩

/-- C2, counterexample: with two remnant rows sharing the SKU `"A"`
(quantities `"1"` then `">10"`) and offer-id list `["A"]`, the second
row's SKU is in the offer-id list, but `create_stocks` emits no entry
with that row's mapped stock count 100 — the first row's match removed
`"A"` from the list, so the second row is skipped.  The output is
`[{offer_id := "A", stock := 0}]` only. -/
theorem C2_counterexample :
    seller.create_stocks
        [⟨.vStr "A", .vStr "1", .vNone⟩, ⟨.vStr "A", .vStr ">10", .vNone⟩]
        ["A"] =
      some [⟨"A", 0⟩] ∧
    pyStr (CellValue.vStr "A") ∈ ["A"] ∧
    seller.Stock.mk "A" 100 ∉ [seller.Stock.mk "A" 0] := by
  refine ⟨?_, by decide, by decide⟩
  rfl

/-- C2 (amended): provided no SKU occurs twice among the remnant rows and
`create_stocks` succeeds, every remnant row whose SKU is in the offer-id
list yields an entry whose stock is 100 for quantity text `">10"`, 0 for
`"1"`, and the `int` value of the quantity otherwise; every offer id with
no matching remnant row gets a zero-stock entry; hence every input offer
id appears in the output.  market.py's `create_stocks` produces exactly
the same entries transported to its record shape. -/
theorem C2_create_stocks (rs : List Row) (ids : List String)
    (s : List seller.Stock)
    (hnd : (rs.map (fun w => pyStr w.code)).Nodup)
    (hok : seller.create_stocks rs ids = some s) :
    (∀ w ∈ rs, pyStr w.code ∈ ids →
      ∃ st, normalizeCount w.quantity = some st ∧
        (pyStr w.quantity = ">10" → st = 100) ∧
        (pyStr w.quantity = "1" → st = 0) ∧
        (pyStr w.quantity ≠ ">10" → pyStr w.quantity ≠ "1" →
          pyInt w.quantity = some st) ∧
        seller.Stock.mk (pyStr w.code) st ∈ s) ∧
    (∀ x ∈ ids, (∀ w ∈ rs, pyStr w.code ≠ x) → seller.Stock.mk x 0 ∈ s) ∧
    (∀ x ∈ ids, ∃ e ∈ s, e.offer_id = x) ∧
    (∀ wid date, market.create_stocks rs ids wid date =
      some (s.map (market.ofSellerStock wid date))) := by
  unfold seller.create_stocks seller.create_stocksFull at hok
  cases haux : seller.create_stocksAux rs ids with
  | none => rw [haux] at hok; exact absurd hok (by simp)
  | some p =>
    obtain ⟨s1, ids'⟩ := p
    rw [haux] at hok
    simp only [Option.map_some', Option.some.injEq] at hok
    have hs : s = s1 ++ ids'.map fun oid => ⟨oid, 0⟩ := hok.symm
    refine ⟨?_, ?_, ?_, ?_⟩
    · intro w hw hwid
      obtain ⟨st, h1, h2⟩ := seller.aux_matched rs ids s1 ids' hnd haux w hw hwid
      obtain ⟨c1, c2, c3⟩ := normalizeCount_cases w.quantity st h1
      exact ⟨st, h1, c1, c2, c3, hs ▸ List.mem_append_left _ h2⟩
    · intro x hx hnm
      have hx' : x ∈ ids' := seller.aux_unmatched rs ids s1 ids' haux x hx hnm
      refine hs ▸ List.mem_append_right _ ?_
      exact List.mem_map_of_mem _ hx'
    · intro x hx
      rcases seller.aux_covers rs ids s1 ids' haux x hx with ⟨e, he, heq⟩ | hx'
      · exact ⟨e, hs ▸ List.mem_append_left _ he, heq⟩
      · exact ⟨⟨x, 0⟩, hs ▸ List.mem_append_right _ (List.mem_map_of_mem _ hx'), rfl⟩
    · intro wid date
      unfold market.create_stocks
      rw [market_create_stocksFull_eq]
      unfold seller.create_stocksFull
      rw [haux]
      simp only [Option.map_some', Option.some.injEq]
      rw [hs]

/-- Witness for C2 at one matched row (`"A"`, `">10"`) and one extra
listed offer id `"B"`. -/
theorem C2_create_stocks_witness :
    (([⟨.vStr "A", .vStr ">10", .vNone⟩] : List Row).map
      (fun w => pyStr w.code)).Nodup ∧
    seller.create_stocks [⟨.vStr "A", .vStr ">10", .vNone⟩] ["A", "B"] =
      some [⟨"A", 100⟩, ⟨"B", 0⟩] ∧
    ((∀ w ∈ ([⟨.vStr "A", .vStr ">10", .vNone⟩] : List Row),
        pyStr w.code ∈ ["A", "B"] →
        ∃ st, normalizeCount w.quantity = some st ∧
          (pyStr w.quantity = ">10" → st = 100) ∧
          (pyStr w.quantity = "1" → st = 0) ∧
          (pyStr w.quantity ≠ ">10" → pyStr w.quantity ≠ "1" →
            pyInt w.quantity = some st) ∧
          seller.Stock.mk (pyStr w.code) st ∈
            [seller.Stock.mk "A" 100, seller.Stock.mk "B" 0]) ∧
      (∀ x ∈ ["A", "B"], (∀ w ∈ ([⟨.vStr "A", .vStr ">10", .vNone⟩] : List Row),
        pyStr w.code ≠ x) →
        seller.Stock.mk x 0 ∈ [seller.Stock.mk "A" 100, seller.Stock.mk "B" 0]) ∧
      (∀ x ∈ ["A", "B"], ∃ e ∈ [seller.Stock.mk "A" 100, seller.Stock.mk "B" 0],
        e.offer_id = x) ∧
      (∀ wid date, market.create_stocks [⟨.vStr "A", .vStr ">10", .vNone⟩]
          ["A", "B"] wid date =
        some ([seller.Stock.mk "A" 100, seller.Stock.mk "B" 0].map
          (market.ofSellerStock wid date)))) :=
  ⟨by decide, rfl, C2_create_stocks _ _ _ (by decide) rfl⟩

lemma normalizeCount_total (q : CellValue)
    (h : pyStr q = ">10" ∨ pyStr q = "1" ∨ (pyInt q).isSome = true) :
    (normalizeCount q).isSome = true := by
  unfold normalizeCount
  split_ifs with h1 h2
  · rfl
  · rfl
  · rcases h with h | h | h
    · exact absurd h h1
    · exact absurd h h2
    · exact h

/-- C3, counterexample to totality: a listed remnant row whose quantity is
the non-numeric free text `"abc"`, or is absent (`None`), makes
`create_stocks` raise (`int("abc")` / `int(None)`) instead of producing a
stock count. -/
theorem C3_counterexample :
    seller.create_stocks [⟨.vStr "A", .vStr "abc", .vNone⟩] ["A"] = none ∧
    seller.create_stocks [⟨.vStr "A", .vNone, .vNone⟩] ["A"] = none :=
  ⟨rfl, rfl⟩

/-- C3 (amended): the quantity-normalisation mapping is deterministic,
and it is total on rows whose quantity text is `">10"`, `"1"`, or a value
Python's `int` accepts; on absent or non-numeric quantities
`create_stocks` raises.  Both seller.py and market.py behave this way. -/
theorem C3_normalization_total (rs : List Row) (ids : List String)
    (hq : ∀ w ∈ rs, pyStr w.quantity = ">10" ∨ pyStr w.quantity = "1" ∨
      (pyInt w.quantity).isSome = true) :
    (seller.create_stocks rs ids).isSome = true ∧
    (∀ wid date, (market.create_stocks rs ids wid date).isSome = true) ∧
    (∀ rs2 ids2, rs = rs2 → ids = ids2 →
      seller.create_stocks rs ids = seller.create_stocks rs2 ids2) := by
  have haux : (seller.create_stocksAux rs ids).isSome = true :=
    seller.aux_total rs ids (fun w hw => normalizeCount_total _ (hq w hw))
  refine ⟨?_, ?_, ?_⟩
  · unfold seller.create_stocks seller.create_stocksFull
    cases h : seller.create_stocksAux rs ids with
    | none => rw [h] at haux; exact absurd haux (by simp)
    | some p => rfl
  · intro wid date
    unfold market.create_stocks
    rw [market_create_stocksFull_eq]
    unfold seller.create_stocksFull
    cases h : seller.create_stocksAux rs ids with
    | none => rw [h] at haux; exact absurd haux (by simp)
    | some p => rfl
  · intro rs2 ids2 h1 h2
    rw [h1, h2]

/-- Witness for C3 at rows exercising all three accepted quantity forms
(`">10"`, `"1"`, numeric text, numeric cell). -/
theorem C3_normalization_total_witness :
    (∀ w ∈ ([⟨.vStr "A", .vStr ">10", .vNone⟩, ⟨.vStr "B", .vStr "1", .vNone⟩,
        ⟨.vStr "C", .vStr "7", .vNone⟩, ⟨.vStr "D", .vInt 9, .vNone⟩] : List Row),
      pyStr w.quantity = ">10" ∨ pyStr w.quantity = "1" ∨
        (pyInt w.quantity).isSome = true) ∧
    ((seller.create_stocks [⟨.vStr "A", .vStr ">10", .vNone⟩,
        ⟨.vStr "B", .vStr "1", .vNone⟩, ⟨.vStr "C", .vStr "7", .vNone⟩,
        ⟨.vStr "D", .vInt 9, .vNone⟩] ["A", "C"]).isSome = true ∧
      (∀ wid date, (market.create_stocks [⟨.vStr "A", .vStr ">10", .vNone⟩,
        ⟨.vStr "B", .vStr "1", .vNone⟩, ⟨.vStr "C", .vStr "7", .vNone⟩,
        ⟨.vStr "D", .vInt 9, .vNone⟩] ["A", "C"] wid date).isSome = true) ∧
      (∀ rs2 ids2,
        ([⟨.vStr "A", .vStr ">10", .vNone⟩, ⟨.vStr "B", .vStr "1", .vNone⟩,
          ⟨.vStr "C", .vStr "7", .vNone⟩, ⟨.vStr "D", .vInt 9, .vNone⟩] : List Row) = rs2 →
        ["A", "C"] = ids2 →
        seller.create_stocks [⟨.vStr "A", .vStr ">10", .vNone⟩,
          ⟨.vStr "B", .vStr "1", .vNone⟩, ⟨.vStr "C", .vStr "7", .vNone⟩,
          ⟨.vStr "D", .vInt 9, .vNone⟩] ["A", "C"] =
          seller.create_stocks rs2 ids2)) :=
  ⟨by decide, C3_normalization_total _ _ (by decide)⟩

/-- C7, counterexample: `create_stocks` does mutate its caller's
`offer_ids` list — called with one matching remnant row and
`offer_ids = ["A"]`, the list after the call is `[]`, not `["A"]`. -/
theorem C7_counterexample :
    (seller.create_stocksFull [⟨.vStr "A", .vStr ">10", .vNone⟩] ["A"]).map
      Prod.snd = some [] ∧
    some ([] : List String) ≠ some ["A"] :=
  ⟨rfl, by decide⟩

/-- C7 (amended): `create_stocks` (both files) mutates the caller's
`offer_ids` list: afterwards it is a sublist of the original from which
exactly the SKUs matched by some remnant row have been removed; market.py
leaves the list in the same state as seller.py. -/
theorem C7_offer_ids_mutated (rs : List Row) (ids : List String)
    (s : List seller.Stock) (ids' : List String)
    (hok : seller.create_stocksFull rs ids = some (s, ids')) :
    List.Sublist ids' ids ∧
    (∀ x ∈ ids, x ∉ ids' → ∃ w ∈ rs, pyStr w.code = x) ∧
    (∀ wid date ms mids',
      market.create_stocksFull rs ids wid date = some (ms, mids') →
      mids' = ids') := by
  unfold seller.create_stocksFull at hok
  cases haux : seller.create_stocksAux rs ids with
  | none => rw [haux] at hok; exact absurd hok (by simp)
  | some p =>
    obtain ⟨s1, ids1⟩ := p
    rw [haux] at hok
    simp only [Option.map_some', Option.some.injEq, Prod.mk.injEq] at hok
    have haux2 : seller.create_stocksAux rs ids = some (s1, ids') := by
      rw [haux, hok.2]
    refine ⟨seller.aux_sublist rs ids s1 ids' haux2, ?_, ?_⟩
    · exact seller.aux_removed_matched rs ids s1 ids' haux2
    · intro wid date ms mids' hm
      rw [market_create_stocksFull_eq] at hm
      unfold seller.create_stocksFull at hm
      rw [haux2] at hm
      simp only [Option.map_some', Option.some.injEq, Prod.mk.injEq] at hm
      exact hm.2.symm

/-- Witness for C7: one matching row, `offer_ids = ["A", "B"]`; the list
after the call is `["B"]`, a sublist of the original, with the matched
SKU `"A"` removed. -/
theorem C7_offer_ids_mutated_witness :
    seller.create_stocksFull [⟨.vStr "A", .vStr ">10", .vNone⟩] ["A", "B"] =
      some ([⟨"A", 100⟩, ⟨"B", 0⟩], ["B"]) ∧
    (List.Sublist ["B"] ["A", "B"] ∧
      (∀ x ∈ ["A", "B"], x ∉ ["B"] →
        ∃ w ∈ ([⟨.vStr "A", .vStr ">10", .vNone⟩] : List Row),
          pyStr w.code = x) ∧
      (∀ wid date ms mids',
        market.create_stocksFull [⟨.vStr "A", .vStr ">10", .vNone⟩]
          ["A", "B"] wid date = some (ms, mids') →
        mids' = ["B"])) :=
  ⟨rfl, C7_offer_ids_mutated _ _ _ _ rfl⟩

lemma filter_price_map_stockCalls (l : List (List seller.Stock)) :
    (l.map ApiCall.ozonUpdateStocks).filter ApiCall.isPriceCall = [] := by
  induction l with
  | nil => rfl
  | cons b bs ih => simp [List.filter_cons, ApiCall.isPriceCall, ih]

/-- C9, counterexample: with a single remnant row (SKU `"A"` — so no SKU
appears twice in `watch_remnants`) but the offer-id list `["A", "A"]`
containing a duplicate, `offer_ids.remove` deletes only the first
occurrence, the list after `create_stocks` is `["A"]`, and the subsequent
`create_prices` over it returns a non-empty price list, not `[]`. -/
theorem C9_counterexample :
    (([⟨.vStr "A", .vStr ">10", .vStr "100.00"⟩] : List Row).map
      (fun w => pyStr w.code)).Nodup ∧
    (seller.create_stocksFull [⟨.vStr "A", .vStr ">10", .vStr "100.00"⟩]
      ["A", "A"]).map Prod.snd = some ["A"] ∧
    seller.create_prices [⟨.vStr "A", .vStr ">10", .vStr "100.00"⟩] ["A"] =
      some [⟨"UNKNOWN", "RUB", "A", "0", "100"⟩] ∧
    some [seller.Price.mk "UNKNOWN" "RUB" "A" "0" "100"] ≠
      some ([] : List seller.Price) :=
  ⟨by decide, rfl, rfl, by decide⟩

/-- C9 (amended): in seller.py's `main`, provided no SKU appears twice in
`watch_remnants` AND no offer id appears twice in the fetched `offer_ids`
list, the `create_stocks` call removes every matched SKU from `offer_ids`,
so the subsequent `create_prices` call over the same (mutated) list
returns `[]` and the main run issues no price-update HTTP call. -/
theorem C9_prices_empty_after_stocks (rs : List Row) (ids : List String)
    (stocks : List seller.Stock) (ids' : List String) (ok : ℕ → Bool)
    (hndr : (rs.map (fun w => pyStr w.code)).Nodup)
    (hndi : ids.Nodup)
    (hok : seller.create_stocksFull rs ids = some (stocks, ids'))
    (hhttp : ∀ i, ok i = true) :
    seller.create_prices rs ids' = some [] ∧
    (sellerMainBody rs ids ok).1.filter ApiCall.isPriceCall = [] := by
  unfold seller.create_stocksFull at hok
  cases haux : seller.create_stocksAux rs ids with
  | none => rw [haux] at hok; exact absurd hok (by simp)
  | some p =>
    obtain ⟨s1, ids1⟩ := p
    rw [haux] at hok
    simp only [Option.map_some', Option.some.injEq, Prod.mk.injEq] at hok
    have haux2 : seller.create_stocksAux rs ids = some (s1, ids') := by
      rw [haux, hok.2]
    have hchar := seller.aux_final_ids rs ids s1 ids' haux2 hndi
    have hnm : ∀ w ∈ rs, pyStr w.code ∉ ids' := by
      intro w hw hmem
      exact ((hchar (pyStr w.code)).mp hmem).2 w hw rfl
    have hempty : seller.create_prices rs ids' = some [] :=
      seller.create_prices_no_match rs ids' hnm
    refine ⟨hempty, ?_⟩
    have hfull : seller.create_stocksFull rs ids = some (stocks, ids') := by
      unfold seller.create_stocksFull
      rw [haux2]
      simp only [Option.map_some', Option.some.injEq, Prod.mk.injEq]
      exact ⟨hok.2 ▸ hok.1, trivial⟩
    unfold sellerMainBody
    rw [hfull]
    simp only
    rw [pushFrom_all_ok ok hhttp]
    simp only
    rw [hempty]
    simp only [divide_nil]
    rw [pushFrom_all_ok ok hhttp]
    simp only [List.map_nil, List.append_nil]
    exact filter_price_map_stockCalls _

/-- Witness for C9: one matched row, duplicate-free `offer_ids =
["A", "B"]`; afterwards `offer_ids = ["B"]` and `create_prices` returns
`[]`; with an always-OK HTTP oracle the main trace holds no price call. -/
theorem C9_prices_empty_after_stocks_witness :
    (([⟨.vStr "A", .vStr ">10", .vStr "1.0"⟩] : List Row).map
      (fun w => pyStr w.code)).Nodup ∧
    (["A", "B"] : List String).Nodup ∧
    seller.create_stocksFull [⟨.vStr "A", .vStr ">10", .vStr "1.0"⟩]
      ["A", "B"] = some ([⟨"A", 100⟩, ⟨"B", 0⟩], ["B"]) ∧
    (seller.create_prices [⟨.vStr "A", .vStr ">10", .vStr "1.0"⟩] ["B"] =
        some [] ∧
      (sellerMainBody [⟨.vStr "A", .vStr ">10", .vStr "1.0"⟩] ["A", "B"]
        (fun _ => true)).1.filter ApiCall.isPriceCall = []) :=
  ⟨by decide, by decide, rfl,
    C9_prices_empty_after_stocks _ _ _ _ _ (by decide) (by decide) rfl
      (fun _ => rfl)⟩

lemma pushFrom_ok_upto {β : Type _} (ok : ℕ → Bool) :
    ∀ (bs : List β) (k : ℕ), (∀ i, i < bs.length → ok (k + i) = true) →
    pushFrom ok k bs = (bs, none) := by
  intro bs
  induction bs with
  | nil => intro k _; rw [pushFrom]
  | cons b bs ih =>
    intro k hk
    have h0 : ok k = true := by simpa using hk 0 (by simp)
    rw [pushFrom, if_pos h0, ih (k + 1)]
    intro i hi
    have := hk (i + 1) (by simpa using Nat.succ_lt_succ hi)
    rwa [show k + (i + 1) = k + 1 + i from by omega] at this

/-- C6: if the `j`-th HTTP call of seller.py `main`'s batch pushes fails
(`raise_for_status` raises), the pushed trace is exactly the first `j`
batch calls — earlier batches stay pushed, no later batch in either
sequence is pushed — and the exception propagates to `main`'s top-level
`except`, which prints a message and returns normally (the `true` flag:
caught-and-printed). -/
theorem C6_http_failure_aborts (rs : List Row) (ids : List String)
    (stocks : List seller.Stock) (ids' : List String)
    (prices : List seller.Price) (ok : ℕ → Bool) (j : ℕ)
    (hs : seller.create_stocksFull rs ids = some (stocks, ids'))
    (hp : seller.create_prices rs ids' = some prices)
    (hpre : ∀ i, i < j → ok i = true) (hfail : ok j = false)
    (hj : j < (divide stocks 100).length + (divide prices 900).length) :
    sellerMainBody rs ids ok =
      (((divide stocks 100).map ApiCall.ozonUpdateStocks ++
        (divide prices 900).map ApiCall.ozonUpdatePrice).take j, true) := by
  unfold sellerMainBody
  rw [hs]
  simp only
  rcases lt_or_ge j (divide stocks 100).length with hjs | hjs
  · rw [pushFrom_fail ok (divide stocks 100) 0 j
      (fun i hi => by rw [Nat.zero_add]; exact hpre i hi)
      (by rw [Nat.zero_add]; exact hfail) hjs]
    simp only
    rw [List.take_append_of_le_length
      (by rw [List.length_map]; exact le_of_lt hjs)]
    rw [List.map_take]
  · rw [pushFrom_ok_upto ok (divide stocks 100) 0
      (fun i hi => by rw [Nat.zero_add]; exact hpre i (lt_of_lt_of_le hi hjs))]
    simp only
    rw [hp]
    simp only
    have hj2 : j - (divide stocks 100).length < (divide prices 900).length := by
      omega
    rw [pushFrom_fail ok (divide prices 900) (divide stocks 100).length
      (j - (divide stocks 100).length)
      (fun i hi => hpre _ (by omega))
      (by rw [Nat.add_sub_cancel' hjs]; exact hfail) hj2]
    simp only
    rw [List.take_append_eq_append_take]
    rw [List.take_of_length_le
      (show (List.map ApiCall.ozonUpdateStocks (divide stocks 100)).length ≤ j from
        by rw [List.length_map]; exact hjs)]
    rw [List.length_map, List.map_take]
    exact rfl

/-- Witness for C6: empty spreadsheet, one listed offer id and an oracle
failing the very first call: nothing is pushed (`take 0`) and the error
is caught at top level. -/
theorem C6_http_failure_aborts_witness :
    seller.create_stocksFull [] ["A"] = some ([⟨"A", 0⟩], ["A"]) ∧
    seller.create_prices [] ["A"] = some [] ∧
    (fun _ : ℕ => false) 0 = false ∧
    0 < (divide [seller.Stock.mk "A" 0] 100).length +
      (divide ([] : List seller.Price) 900).length ∧
    sellerMainBody [] ["A"] (fun _ => false) =
      (((divide [seller.Stock.mk "A" 0] 100).map ApiCall.ozonUpdateStocks ++
        (divide ([] : List seller.Price) 900).map ApiCall.ozonUpdatePrice).take 0,
        true) :=
  ⟨rfl, rfl, rfl, by simp [divide],
    C6_http_failure_aborts [] ["A"] _ _ _ _ 0 rfl rfl
      (fun i hi => absurd hi (Nat.not_lt_zero i)) rfl (by simp [divide])⟩

lemma filter_price_map_marketStockCalls (c : String)
    (l : List (List market.MStock)) :
    (l.map (ApiCall.marketUpdateStocks c)).filter ApiCall.isPriceCall = [] := by
  induction l with
  | nil => rfl
  | cons b bs ih => simp [List.filter_cons, ApiCall.isPriceCall, ih]

/-- C1: market.py `main` never issues a price-update HTTP call.  Its two
`upload_prices(...)` statements call an `async def` from synchronous code
without `await`, so the coroutine bodies never run; at the concrete input
below the price list the coroutine would have built is non-empty, yet the
trace holds no price call for either campaign. -/
theorem C1_market_main_pushes_no_prices :
    (∀ (rs : List Row) (fbsIds dbsIds : List String)
      (whF whD date : String) (ok : ℕ → Bool),
      (marketMainBody rs fbsIds dbsIds whF whD date ok).1.filter
        ApiCall.isPriceCall = []) ∧
    market.create_prices [⟨.vStr "A", .vStr ">10", .vStr "5'990.00 руб."⟩]
      ["A"] = some [⟨"A", 5990, "RUR"⟩] ∧
    ([⟨"A", 5990, "RUR"⟩] : List market.MPrice) ≠ [] := by
  refine ⟨?_, rfl, by decide⟩
  intro rs fbsIds dbsIds whF whD date ok
  unfold marketMainBody
  cases hF : market.create_stocksFull rs fbsIds whF date with
  | none => rfl
  | some pF =>
    obtain ⟨sF, idsF⟩ := pF
    simp only
    cases hrF : (pushFrom ok 0 (divide sF 2000)).2 with
    | some e =>
      simp only [hrF]
      exact filter_price_map_marketStockCalls _ _
    | none =>
      simp only [hrF]
      cases hD : market.create_stocksFull rs dbsIds whD date with
      | none => exact filter_price_map_marketStockCalls _ _
      | some pD =>
        obtain ⟨sD, idsD⟩ := pD
        simp only
        rw [List.filter_append]
        rw [filter_price_map_marketStockCalls, filter_price_map_marketStockCalls]
        rfl

/-- The stock batches pushed to Ozon in a trace. -/
def ozonStockBatches (t : List ApiCall) : List (List seller.Stock) :=
  t.filterMap fun c => match c with
    | .ozonUpdateStocks b => some b
    | _ => none

/-- The price batches pushed to Ozon in a trace. -/
def ozonPriceBatches (t : List ApiCall) : List (List seller.Price) :=
  t.filterMap fun c => match c with
    | .ozonUpdatePrice b => some b
    | _ => none

/-- The stock batches pushed to one Yandex Market campaign in a trace. -/
def marketStockBatches (camp : String) (t : List ApiCall) :
    List (List market.MStock) :=
  t.filterMap fun c => match c with
    | .marketUpdateStocks c2 b => if c2 = camp then some b else none
    | _ => none

/-- The price batches pushed to one Yandex Market campaign in a trace. -/
def marketPriceBatches (camp : String) (t : List ApiCall) :
    List (List market.MPrice) :=
  t.filterMap fun c => match c with
    | .marketUpdatePrice c2 b => if c2 = camp then some b else none
    | _ => none

lemma sellerMainBody_all_ok (rs : List Row) (ids : List String)
    (stocks : List seller.Stock) (ids' : List String)
    (prices : List seller.Price) (ok : ℕ → Bool)
    (hok : ∀ i, ok i = true)
    (hs : seller.create_stocksFull rs ids = some (stocks, ids'))
    (hp : seller.create_prices rs ids' = some prices) :
    sellerMainBody rs ids ok =
      ((divide stocks 100).map ApiCall.ozonUpdateStocks ++
        (divide prices 900).map ApiCall.ozonUpdatePrice, false) := by
  unfold sellerMainBody
  rw [hs]
  simp only
  rw [pushFrom_all_ok ok hok]
  simp only
  rw [hp]
  simp only
  rw [pushFrom_all_ok ok hok]
  rfl

lemma sellerUploadPricesBody_all_ok (rs : List Row) (ids : List String)
    (prices : List seller.Price) (ok : ℕ → Bool)
    (hok : ∀ i, ok i = true)
    (hp : seller.create_prices rs ids = some prices) :
    sellerUploadPricesBody rs ids ok =
      ((divide prices 1000).map ApiCall.ozonUpdatePrice, false) := by
  unfold sellerUploadPricesBody
  rw [hp]
  simp only
  rw [pushFrom_all_ok ok hok]
  rfl

lemma marketUploadPricesBody_all_ok (rs : List Row) (ids : List String)
    (camp : String) (mprices : List market.MPrice) (ok : ℕ → Bool)
    (hok : ∀ i, ok i = true)
    (hp : market.create_prices rs ids = some mprices) :
    marketUploadPricesBody rs ids camp ok =
      ((divide mprices 500).map (ApiCall.marketUpdatePrice camp), false) := by
  unfold marketUploadPricesBody
  rw [hp]
  simp only
  rw [pushFrom_all_ok ok hok]
  rfl

lemma marketMainBody_all_ok (rs : List Row) (fbsIds dbsIds : List String)
    (whF whD date : String) (msF msD : List market.MStock)
    (idsF idsD : List String) (ok : ℕ → Bool)
    (hok : ∀ i, ok i = true)
    (hmf : market.create_stocksFull rs fbsIds whF date = some (msF, idsF))
    (hmd : market.create_stocksFull rs dbsIds whD date = some (msD, idsD)) :
    marketMainBody rs fbsIds dbsIds whF whD date ok =
      ((divide msF 2000).map (ApiCall.marketUpdateStocks "FBS") ++
        (divide msD 2000).map (ApiCall.marketUpdateStocks "DBS"), false) := by
  unfold marketMainBody
  rw [hmf]
  simp only
  rw [pushFrom_all_ok ok hok]
  simp only
  rw [hmd]
  simp only
  rw [pushFrom_all_ok ok hok]
  rfl

lemma ozonStockBatches_trace (A : List (List seller.Stock))
    (B : List (List seller.Price)) :
    ozonStockBatches (A.map ApiCall.ozonUpdateStocks ++
      B.map ApiCall.ozonUpdatePrice) = A := by
  unfold ozonStockBatches
  rw [List.filterMap_append]
  induction A with
  | nil =>
    simp only [List.map_nil, List.filterMap_nil, List.nil_append]
    induction B with
    | nil => rfl
    | cons b bs ihb => simpa using ihb
  | cons a as iha => simpa using iha

lemma ozonPriceBatches_trace (A : List (List seller.Stock))
    (B : List (List seller.Price)) :
    ozonPriceBatches (A.map ApiCall.ozonUpdateStocks ++
      B.map ApiCall.ozonUpdatePrice) = B := by
  unfold ozonPriceBatches
  rw [List.filterMap_append]
  induction A with
  | nil =>
    simp only [List.map_nil, List.filterMap_nil, List.nil_append]
    induction B with
    | nil => rfl
    | cons b bs ihb => simpa using ihb
  | cons a as iha => simpa using iha

lemma ozonPriceBatches_mapOnly (B : List (List seller.Price)) :
    ozonPriceBatches (B.map ApiCall.ozonUpdatePrice) = B := by
  unfold ozonPriceBatches
  induction B with
  | nil => rfl
  | cons b bs ihb => simpa using ihb

lemma marketStockBatches_trace (camp c2 : String) (h : c2 ≠ camp)
    (A B : List (List market.MStock)) :
    marketStockBatches camp (A.map (ApiCall.marketUpdateStocks camp) ++
      B.map (ApiCall.marketUpdateStocks c2)) = A := by
  unfold marketStockBatches
  rw [List.filterMap_append]
  induction A with
  | nil =>
    simp only [List.map_nil, List.filterMap_nil, List.nil_append]
    induction B with
    | nil => rfl
    | cons b bs ihb => simpa [h] using ihb
  | cons a as iha => simpa using iha

lemma marketPriceBatches_trace (camp : String)
    (B : List (List market.MPrice)) :
    marketPriceBatches camp (B.map (ApiCall.marketUpdatePrice camp)) = B := by
  unfold marketPriceBatches
  induction B with
  | nil => rfl
  | cons b bs ihb => simpa using ihb

/-- C8: with an always-OK HTTP oracle, every batch pushed by any embedded
pipeline respects its site's chunk size — seller.py `main` pushes stocks
in chunks of 100 and prices in chunks of 900, seller.py `upload_prices`
pushes prices in chunks of 1000, market.py `main` pushes stocks in chunks
of 2000 for each campaign, market.py `upload_prices` pushes prices in
chunks of 500 — non-final batches have exactly the chunk size, every
batch is bounded by it, and each of the five chunk sizes lies between 100
and 2000 inclusive. -/
theorem C8_chunk_sizes (rs : List Row)
    (ids pIds mpIds fbsIds dbsIds : List String)
    (stocks : List seller.Stock) (ids' : List String)
    (prices prices2 : List seller.Price)
    (msF msD : List market.MStock) (idsF idsD : List String)
    (mprices : List market.MPrice) (whF whD date camp : String)
    (ok : ℕ → Bool)
    (hok : ∀ i, ok i = true)
    (hs : seller.create_stocksFull rs ids = some (stocks, ids'))
    (hp : seller.create_prices rs ids' = some prices)
    (hp2 : seller.create_prices rs pIds = some prices2)
    (hmf : market.create_stocksFull rs fbsIds whF date = some (msF, idsF))
    (hmd : market.create_stocksFull rs dbsIds whD date = some (msD, idsD))
    (hmp : market.create_prices rs mpIds = some mprices) :
    ((∀ b ∈ ozonStockBatches (sellerMainBody rs ids ok).1, b.length ≤ 100) ∧
      (∀ b ∈ (ozonStockBatches (sellerMainBody rs ids ok).1).dropLast,
        b.length = 100)) ∧
    ((∀ b ∈ ozonPriceBatches (sellerMainBody rs ids ok).1, b.length ≤ 900) ∧
      (∀ b ∈ (ozonPriceBatches (sellerMainBody rs ids ok).1).dropLast,
        b.length = 900)) ∧
    ((∀ b ∈ ozonPriceBatches (sellerUploadPricesBody rs pIds ok).1,
        b.length ≤ 1000) ∧
      (∀ b ∈ (ozonPriceBatches (sellerUploadPricesBody rs pIds ok).1).dropLast,
        b.length = 1000)) ∧
    ((∀ b ∈ marketStockBatches "FBS"
        (marketMainBody rs fbsIds dbsIds whF whD date ok).1, b.length ≤ 2000) ∧
      (∀ b ∈ (marketStockBatches "FBS"
        (marketMainBody rs fbsIds dbsIds whF whD date ok).1).dropLast,
        b.length = 2000)) ∧
    ((∀ b ∈ marketPriceBatches camp
        (marketUploadPricesBody rs mpIds camp ok).1, b.length ≤ 500) ∧
      (∀ b ∈ (marketPriceBatches camp
        (marketUploadPricesBody rs mpIds camp ok).1).dropLast,
        b.length = 500)) ∧
    ((100 ≤ 100 ∧ 100 ≤ 2000) ∧ (100 ≤ 900 ∧ 900 ≤ 2000) ∧
      (100 ≤ 1000 ∧ 1000 ≤ 2000) ∧ (100 ≤ 2000 ∧ 2000 ≤ 2000) ∧
      (100 ≤ 500 ∧ 500 ≤ 2000)) := by
  rw [sellerMainBody_all_ok rs ids stocks ids' prices ok hok hs hp]
  rw [sellerUploadPricesBody_all_ok rs pIds prices2 ok hok hp2]
  rw [marketMainBody_all_ok rs fbsIds dbsIds whF whD date msF msD idsF idsD
    ok hok hmf hmd]
  rw [marketUploadPricesBody_all_ok rs mpIds camp mprices ok hok hmp]
  simp only
  rw [ozonStockBatches_trace, ozonPriceBatches_trace, ozonPriceBatches_mapOnly,
    marketStockBatches_trace "FBS" "DBS" (by decide),
    marketPriceBatches_trace]
  exact ⟨⟨divide_length_le 100 (by decide) stocks,
      divide_dropLast_length 100 (by decide) stocks⟩,
    ⟨divide_length_le 900 (by decide) prices,
      divide_dropLast_length 900 (by decide) prices⟩,
    ⟨divide_length_le 1000 (by decide) prices2,
      divide_dropLast_length 1000 (by decide) prices2⟩,
    ⟨divide_length_le 2000 (by decide) msF,
      divide_dropLast_length 2000 (by decide) msF⟩,
    ⟨divide_length_le 500 (by decide) mprices,
      divide_dropLast_length 500 (by decide) mprices⟩,
    by omega⟩

/-- Concrete one-row spreadsheet used by the C8 witness. -/
def c8rs : List Row := [⟨.vStr "A", .vStr ">10", .vStr "1.0"⟩]

/-- Always-OK HTTP oracle used by the C8 witness. -/
def c8ok : ℕ → Bool := fun _ => true

/-- Witness for C8 at a one-row spreadsheet, singleton offer-id lists and
an always-OK oracle. -/
theorem C8_chunk_sizes_witness :
    (∀ i, c8ok i = true) ∧
    seller.create_stocksFull c8rs ["A"] = some ([⟨"A", 100⟩], []) ∧
    seller.create_prices c8rs [] = some [] ∧
    seller.create_prices c8rs ["A"] = some [⟨"UNKNOWN", "RUB", "A", "0", "1"⟩] ∧
    market.create_stocksFull c8rs ["A"] "wf" "d" =
      some ([⟨"A", "wf", 100, "FIT", "d"⟩], []) ∧
    market.create_stocksFull c8rs ["A"] "wd" "d" =
      some ([⟨"A", "wd", 100, "FIT", "d"⟩], []) ∧
    market.create_prices c8rs ["A"] = some [⟨"A", 1, "RUR"⟩] ∧
    (((∀ b ∈ ozonStockBatches (sellerMainBody c8rs ["A"] c8ok).1,
        b.length ≤ 100) ∧
      (∀ b ∈ (ozonStockBatches (sellerMainBody c8rs ["A"] c8ok).1).dropLast,
        b.length = 100)) ∧
    ((∀ b ∈ ozonPriceBatches (sellerMainBody c8rs ["A"] c8ok).1,
        b.length ≤ 900) ∧
      (∀ b ∈ (ozonPriceBatches (sellerMainBody c8rs ["A"] c8ok).1).dropLast,
        b.length = 900)) ∧
    ((∀ b ∈ ozonPriceBatches (sellerUploadPricesBody c8rs ["A"] c8ok).1,
        b.length ≤ 1000) ∧
      (∀ b ∈ (ozonPriceBatches
          (sellerUploadPricesBody c8rs ["A"] c8ok).1).dropLast,
        b.length = 1000)) ∧
    ((∀ b ∈ marketStockBatches "FBS"
        (marketMainBody c8rs ["A"] ["A"] "wf" "wd" "d" c8ok).1,
        b.length ≤ 2000) ∧
      (∀ b ∈ (marketStockBatches "FBS"
          (marketMainBody c8rs ["A"] ["A"] "wf" "wd" "d" c8ok).1).dropLast,
        b.length = 2000)) ∧
    ((∀ b ∈ marketPriceBatches "X"
        (marketUploadPricesBody c8rs ["A"] "X" c8ok).1, b.length ≤ 500) ∧
      (∀ b ∈ (marketPriceBatches "X"
          (marketUploadPricesBody c8rs ["A"] "X" c8ok).1).dropLast,
        b.length = 500)) ∧
    ((100 ≤ 100 ∧ 100 ≤ 2000) ∧ (100 ≤ 900 ∧ 900 ≤ 2000) ∧
      (100 ≤ 1000 ∧ 1000 ≤ 2000) ∧ (100 ≤ 2000 ∧ 2000 ≤ 2000) ∧
      (100 ≤ 500 ∧ 500 ≤ 2000))) :=
  ⟨fun _ => rfl, rfl, rfl, rfl, rfl, rfl, rfl,
    C8_chunk_sizes c8rs ["A"] ["A"] ["A"] ["A"] ["A"] [⟨"A", 100⟩] []
      [] [⟨"UNKNOWN", "RUB", "A", "0", "1"⟩]
      [⟨"A", "wf", 100, "FIT", "d"⟩] [⟨"A", "wd", 100, "FIT", "d"⟩] [] []
      [⟨"A", 1, "RUR"⟩] "wf" "wd" "d" "X" c8ok
      (fun _ => rfl) rfl rfl rfl rfl rfl rfl⟩

lemma getOfferIdsLoop_sound (pages : ℕ → OzonPage) :
    ∀ (fuel k : ℕ) (acc r : List OzonProduct),
    getOfferIdsLoop pages fuel k acc = some r →
    acc.length = ∑ i ∈ Finset.range k, (pages i).items.length →
    ∃ n, (pages n).total = cumItems pages n := by
  intro fuel
  induction fuel with
  | zero => intro k acc r h _; exact absurd h (by rw [getOfferIdsLoop]; simp)
  | succ fuel ih =>
    intro k acc r h hacc
    rw [getOfferIdsLoop] at h
    by_cases hc : (pages k).total = (acc ++ (pages k).items).length
    · refine ⟨k, ?_⟩
      rw [hc]
      unfold cumItems
      rw [List.length_append, hacc, Finset.sum_range_succ]
    · rw [if_neg hc] at h
      exact ih (k + 1) (acc ++ (pages k).items) r h
        (by rw [List.length_append, hacc, Finset.sum_range_succ])

lemma getOfferIdsLoop_complete (pages : ℕ → OzonPage) (n : ℕ)
    (hn : (pages n).total = cumItems pages n) :
    ∀ (d k : ℕ) (acc : List OzonProduct), k + d = n →
    acc.length = ∑ i ∈ Finset.range k, (pages i).items.length →
    ∃ fuel, (getOfferIdsLoop pages fuel k acc).isSome = true := by
  intro d
  induction d with
  | zero =>
    intro k acc hk hacc
    refine ⟨1, ?_⟩
    rw [getOfferIdsLoop]
    have hkn : k = n := by omega
    subst hkn
    have : (pages k).total = (acc ++ (pages k).items).length := by
      rw [List.length_append, hacc, hn]
      unfold cumItems
      rw [Finset.sum_range_succ]
    rw [if_pos this]
    rfl
  | succ d ih =>
    intro k acc hk hacc
    by_cases hc : (pages k).total = (acc ++ (pages k).items).length
    · exact ⟨1, by rw [getOfferIdsLoop, if_pos hc]; rfl⟩
    · obtain ⟨fuel, hf⟩ := ih (k + 1) (acc ++ (pages k).items) (by omega)
        (by rw [List.length_append, hacc, Finset.sum_range_succ])
      exact ⟨fuel + 1, by rw [getOfferIdsLoop, if_neg hc]; exact hf⟩

lemma getOfferIdsLoop_bad : ∀ (fuel k : ℕ),
    getOfferIdsLoop badPages fuel k [] = none := by
  intro fuel
  induction fuel with
  | zero => intro k; rw [getOfferIdsLoop]
  | succ fuel ih =>
    intro k
    rw [getOfferIdsLoop]
    simp only [badPages, List.append_nil]
    exact ih (k + 1)

/-- C10: the pagination loop of seller.py `get_offer_ids` terminates if
and only if at some iteration the page's reported `total` equals the
cumulative number of items accumulated so far; under the server behaviour
`badPages` (empty pages reporting `total = 1`, so `total` always
overshoots), the loop runs forever — no fuel bound suffices. -/
theorem C10_pagination_terminates_iff :
    (∀ pages : ℕ → OzonPage,
      (∃ fuel, (get_offer_idsFuel pages fuel).isSome = true) ↔
      ∃ n, (pages n).total = cumItems pages n) ∧
    ∀ fuel, get_offer_idsFuel badPages fuel = none := by
  constructor
  · intro pages
    constructor
    · rintro ⟨fuel, hf⟩
      unfold get_offer_idsFuel at hf
      cases h : getOfferIdsLoop pages fuel 0 [] with
      | none => rw [h] at hf; exact absurd hf (by simp)
      | some r => exact getOfferIdsLoop_sound pages fuel 0 [] r h (by simp)
    · rintro ⟨n, hn⟩
      obtain ⟨fuel, hf⟩ :=
        getOfferIdsLoop_complete pages n hn n 0 [] (by omega) (by simp)
      refine ⟨fuel, ?_⟩
      unfold get_offer_idsFuel
      cases h : getOfferIdsLoop pages fuel 0 [] with
      | none => rw [h] at hf; exact absurd hf (by simp)
      | some r => rfl
  · intro fuel
    unfold get_offer_idsFuel
    rw [getOfferIdsLoop_bad]
    rfl
